import Mathlib

/-
  Verification development for yb/server/pprof-path-handlers_util.cc
  (heap-profile sample aggregation, ranking and rendering).

  Shallow embedding conventions:
  * Machine integers: int64_t fields become Int; uintptr_t fields (gperftools
    flattened sample array) become Nat.  No overflow is modelled because the
    source performs only additions of sampled byte counts, far below 2^63.
  * The symbolizer (absl::Symbolize / GlogSymbolize) is an external
    collaborator: it is a parameter sym : Nat -> Option String, where a raw
    program-counter address is a Nat, some s means success with resolved text s
    (already truncated to the 256-byte buffer) and none means failure.
  * std::unordered_map<std::string, SampleInfo> with operator[] value
    initialisation is embedded as an association list updated in place
    (addToEntry); unordered_map iteration order is unspecified in C++, the
    association list fixes insertion order as the representative order.
  * tcmalloc::Profile::Iterate and the for loops become folds / structural
    recursion over lists of sample records.
  * std::sort is not a stable sort: its postcondition is only that the output
    is a permutation of the input, sorted with respect to the comparator.
    The executable embedding SortSamplesByOrder uses an insertion sort as one
    implementation satisfying that postcondition; the contract itself is the
    relation IsStdSortOutput, used where tie behaviour matters.
-/

/-- Embeds struct SampleInfo (cumulative bytes and occurrence count, both
int64_t) from pprof-path-handlers_util.h. -/
structure SampleInfo where
  bytes : Int
  count : Int
deriving DecidableEq, Repr

/-- Embeds using Sample = std::pair<std::string, SampleInfo>: the symbolized
stack key paired with its aggregate totals. -/
abbrev Sample := String × SampleInfo

/-- Embeds enum SampleOrder, the two ordering keys used by
SortSamplesByOrder. -/
inductive SampleOrder where
  | kBytes
  | kCount
deriving DecidableEq, Repr

/-- Embeds tcmalloc::Profile::Sample as consumed by AggregateAndSortProfile:
count and allocated_size are int64_t, is_censored is a bool, and the stack of
raw addresses (stack array plus depth) is a list of addresses. -/
structure ProfileSample where
  count : Int
  allocated_size : Int
  is_censored : Bool
  stack : List Nat
deriving DecidableEq, Repr

/-- Embeds one record of the gperftools flattened sample array
[count, size, depth, pc0, pc1, ...]: count and size are uintptr_t, the stack
is the depth-many program counters.  A record with count = 0 is the array
terminator. -/
structure GSample where
  count : Nat
  size : Nat
  stack : List Nat
deriving DecidableEq, Repr

/-- The line contributed by one frame to the stack key: the resolved symbol
followed by std::endl on success, the fixed placeholder line on failure. -/
def symLine (sym : Nat → Option String) (pc : Nat) : String :=
  match sym pc with
  | some s => s ++ "\n"
  | none => "Failed to symbolize\n"

/-- Right-fold concatenation of a list of strings, used to state the closed
form of the stack-key loop. -/
def concatLines : List String → String
  | [] => ""
  | s :: rest => s ++ concatLines rest

/-- The per-sample symbolization loop: walks the frames accumulating the
stringstream contents and the failed_symbolizations counter, exactly as the
for loop over sample.depth does in both backends. -/
def symbolizeStackGo (sym : Nat → Option String) :
    List Nat → String → Nat → String × Nat
  | [], acc, fails => (acc, fails)
  | pc :: rest, acc, fails =>
    match sym pc with
    | some s => symbolizeStackGo sym rest (acc ++ (s ++ "\n")) fails
    | none => symbolizeStackGo sym rest (acc ++ "Failed to symbolize\n") (fails + 1)

/-- Builds the SymbolizedStackKey of one sample together with the number of
frames whose symbolization failed (the sample's contribution to the
failed_symbolizations counter). -/
def symbolizeStack (sym : Nat → Option String) (stack : List Nat) : String × Nat :=
  symbolizeStackGo sym stack "" 0

/-- Embeds samples_map[stack]; entry.bytes += b; entry.count += c.
unordered_map operator[] value-initialises a missing entry to SampleInfo with
bytes = 0 and count = 0 before the update. -/
def addToEntry (m : List Sample) (key : String) (b c : Int) : List Sample :=
  match m with
  | [] => [(key, ⟨b, c⟩)]
  | (k, info) :: rest =>
    if k = key then (k, ⟨info.bytes + b, info.count + c⟩) :: rest
    else (k, info) :: addToEntry rest key b c

/-- Reads the SampleInfo stored for a key, returning the value-initialised
SampleInfo (0, 0) when the key is absent, mirroring unordered_map
operator[] on a fresh key. -/
def lookupEntry (m : List Sample) (key : String) : SampleInfo :=
  match m with
  | [] => ⟨0, 0⟩
  | (k, info) :: rest => if k = key then info else lookupEntry rest key

/-- Sum of cumulative bytes over all aggregated entries. -/
def mapBytesTotal (m : List Sample) : Int :=
  (m.map (fun e => e.2.bytes)).sum

/-- Sum of cumulative occurrence counts over all aggregated entries. -/
def mapCountTotal (m : List Sample) : Int :=
  (m.map (fun e => e.2.count)).sum

/-- The retention policy of AggregateAndSortProfile read off its two early
returns: a sample is kept when its count is positive and, in growth-only
mode, it is additionally censored. -/
def retainedProfile (only_growth : Bool) (s : ProfileSample) : Bool :=
  decide (0 < s.count) && (!only_growth || s.is_censored)

/-- Embeds the body of the Iterate callback of AggregateAndSortProfile for a
single tcmalloc sample: skip when sample.count <= 0, skip when only_growth
and not is_censored, otherwise build the stack key (accumulating
symbolization failures) and fold allocated_size into entry.bytes while
incrementing entry.count by one (++entry.count in the source). -/
def profileStep (only_growth : Bool) (sym : Nat → Option String)
    (acc : List Sample × Nat) (s : ProfileSample) : List Sample × Nat :=
  if s.count ≤ 0 then acc
  else if only_growth && !s.is_censored then acc
  else
    let kf := symbolizeStack sym s.stack
    (addToEntry acc.1 kf.1 s.allocated_size 1, acc.2 + kf.2)

/-- Embeds the aggregation phase of AggregateAndSortProfile: the fold of
profileStep over the profile's samples starting from the empty map and a zero
failed_symbolizations counter.  Returns the samples_map together with the
final failure counter. -/
def aggregateProfile (sym : Nat → Option String) (samples : List ProfileSample)
    (only_growth : Bool) : List Sample × Nat :=
  samples.foldl (profileStep only_growth sym) ([], 0)

/-- Embeds the lambda passed to std::sort in SortSamplesByOrder: for kBytes it
returns a.second.bytes > b.second.bytes, for kCount a.second.count >
b.second.count. -/
def sampleCmp (order : SampleOrder) (a b : Sample) : Bool :=
  match order with
  | SampleOrder.kBytes => decide (b.2.bytes < a.2.bytes)
  | SampleOrder.kCount => decide (b.2.count < a.2.count)

/-- The postcondition of std::sort with comparator sampleCmp order: the output
is a permutation of the input and no element strictly precedes (under the
comparator) an element placed before it.  Tie order is unspecified, so any
output satisfying this relation is an allowed behaviour of the source. -/
def IsStdSortOutput (order : SampleOrder) (input output : List Sample) : Prop :=
  output.Perm input ∧ output.Pairwise (fun a b => sampleCmp order b a = false)

/-- Insertion of an element into a list sorted by the Boolean relation le. -/
def insertLe (le : Sample → Sample → Bool) (a : Sample) : List Sample → List Sample
  | [] => [a]
  | b :: rest => if le a b then a :: b :: rest else b :: insertLe le a rest

/-- Insertion sort by the Boolean relation le. -/
def sortByLe (le : Sample → Sample → Bool) : List Sample → List Sample
  | [] => []
  | a :: rest => insertLe le a (sortByLe le rest)

/-- Embeds SortSamplesByOrder.  std::sort guarantees only IsStdSortOutput; an
insertion sort by the non-strict complement of the comparator is the
executable implementation chosen for the embedding. -/
def SortSamplesByOrder (samples : List Sample) (order : SampleOrder) : List Sample :=
  sortByLe (fun a b => !sampleCmp order b a) samples

/-- Embeds AggregateAndSortProfile (google tcmalloc backend): aggregate the
profile's samples, then sort the entries by the requested order. -/
def AggregateAndSortProfile (sym : Nat → Option String)
    (samples : List ProfileSample) (only_growth : Bool) (order : SampleOrder) :
    List Sample :=
  SortSamplesByOrder (aggregateProfile sym samples only_growth).1 order

/-- Embeds one iteration body of the gperftools snapshot loop: build the stack
key, then entry.bytes += GetSampleSize(sample) and entry.count +=
GetSampleCount(sample), with no filtering of any kind. -/
def gStep (sym : Nat → Option String) (acc : List Sample × Nat) (s : GSample) :
    List Sample × Nat :=
  let kf := symbolizeStack sym s.stack
  (addToEntry acc.1 kf.1 (Int.ofNat s.size) (Int.ofNat s.count), acc.2 + kf.2)

/-- Embeds the for loop of GetAggregateAndSortHeapSnapshot over the flattened
sample array: the loop condition GetSampleCount(sample) != 0 is tested before
each record, so iteration stops at the first record whose count is 0 and every
earlier record is processed unconditionally by gStep. -/
def gLoop (sym : Nat → Option String) :
    List GSample → List Sample × Nat → List Sample × Nat
  | [], acc => acc
  | s :: rest, acc =>
    if s.count = 0 then acc else gLoop sym rest (gStep sym acc s)

/-- Embeds GetAggregateAndSortHeapSnapshot (gperftools backend): run the
sentinel-terminated aggregation loop from the empty map, then sort by the
requested order. -/
def GetAggregateAndSortHeapSnapshot (sym : Nat → Option String)
    (samples : List GSample) (order : SampleOrder) : List Sample :=
  SortSamplesByOrder (gLoop sym samples ([], 0)).1 order

/-- Embeds the Avg bytes cell of GenerateTable:
entry.second.count <= 0 ? 0 : entry.second.bytes / entry.second.count, with
C++ int64_t division truncating toward zero (Int.tdiv). -/
def avgBytesCell (info : SampleInfo) : Int :=
  if info.count ≤ 0 then 0 else Int.tdiv info.bytes info.count

/-- Embeds one row of the rendered table body.  esc is the external
EscapeForHtmlToString collaborator applied to the stack text. -/
def tableRow (esc : String → String) (entry : Sample) : String :=
  "<tr>" ++ ("<td>" ++ toString entry.2.bytes ++ "</td>")
    ++ ("<td>" ++ toString entry.2.count ++ "</td>")
    ++ ("<td>" ++ toString (avgBytesCell entry.2) ++ "</td>")
    ++ ("<td><pre>" ++ esc entry.1 ++ "</pre></td>") ++ "</tr>"

/-- Embeds the conditional truncation notice of GenerateTable: emitted exactly
when samples.size() > max_call_stacks, stating size - max_call_stacks. -/
def truncationNotice (nSamples maxRows : Nat) : Option String :=
  if maxRows < nSamples then
    some (toString (nSamples - maxRows) ++ " call stacks truncated\n")
  else none

/-- Embeds the row loop of GenerateTable: one rendered row per entry at the
first min(max_call_stacks, samples.size()) positions. -/
def generateTableRows (esc : String → String) (samples : List Sample)
    (maxRows : Nat) : List String :=
  (samples.take (min maxRows samples.length)).map (tableRow esc)

/-- Embeds GenerateTable: header line, optional truncation notice, table
header, rendered rows, closing tag, concatenated in source order. -/
def GenerateTable (esc : String → String) (samples : List Sample)
    (title : String) (maxRows : Nat) : String :=
  ("<b>Top " ++ toString maxRows ++ " Call Stacks for: " ++ title ++ "</b>\n")
    ++ (match truncationNotice samples.length maxRows with
        | some s => s
        | none => "")
    ++ "<p>\n"
    ++ "<table style=\"border-collapse: collapse\" border=1 cellpadding=5>\n"
    ++ "<tr>\n<th>Total bytes</th>\n<th>Count</th>\n<th>Avg bytes</th>\n<th>Call Stack</th>\n</tr>\n"
    ++ concatLines (generateTableRows esc samples maxRows)
    ++ "</table>"

/-! ### Helper lemmas -/

lemma addToEntry_bytesTotal (m : List Sample) (key : String) (b c : Int) :
    mapBytesTotal (addToEntry m key b c) = mapBytesTotal m + b := by
  induction m with
  | nil => simp [addToEntry, mapBytesTotal]
  | cons e rest ih =>
    obtain ⟨k, info⟩ := e
    by_cases h : k = key <;> simp [addToEntry, h, mapBytesTotal] at ih ⊢ <;> omega

lemma addToEntry_countTotal (m : List Sample) (key : String) (b c : Int) :
    mapCountTotal (addToEntry m key b c) = mapCountTotal m + c := by
  induction m with
  | nil => simp [addToEntry, mapCountTotal]
  | cons e rest ih =>
    obtain ⟨k, info⟩ := e
    by_cases h : k = key <;> simp [addToEntry, h, mapCountTotal] at ih ⊢ <;> omega

lemma lookupEntry_addToEntry_self (m : List Sample) (key : String) (b c : Int) :
    lookupEntry (addToEntry m key b c) key =
      ⟨(lookupEntry m key).bytes + b, (lookupEntry m key).count + c⟩ := by
  induction m with
  | nil => simp [addToEntry, lookupEntry]
  | cons e rest ih =>
    obtain ⟨k, info⟩ := e
    by_cases h : k = key <;> simp [addToEntry, lookupEntry, h, ih]

lemma addToEntry_mem_nonneg (m : List Sample) (key : String) (b c : Int)
    (hm : ∀ e ∈ m, 0 ≤ e.2.bytes ∧ 0 ≤ e.2.count) (hb : 0 ≤ b) (hc : 0 ≤ c) :
    ∀ e ∈ addToEntry m key b c, 0 ≤ e.2.bytes ∧ 0 ≤ e.2.count := by
  induction m with
  | nil =>
    intro e he
    simp [addToEntry] at he
    subst he
    exact ⟨hb, hc⟩
  | cons hd rest ih =>
    obtain ⟨k, info⟩ := hd
    have hhd := hm (k, info) (by simp)
    have hrest : ∀ e ∈ rest, 0 ≤ e.2.bytes ∧ 0 ≤ e.2.count := by
      intro e he; exact hm e (by simp [he])
    intro e he
    by_cases h : k = key
    · simp [addToEntry, h] at he
      rcases he with he | he
      · subst he
        constructor
        · exact add_nonneg hhd.1 hb
        · exact add_nonneg hhd.2 hc
      · exact hrest e he
    · simp [addToEntry, h] at he
      rcases he with he | he
      · subst he; exact hhd
      · exact ih hrest e he

lemma symbolizeStackGo_closed (sym : Nat → Option String) :
    ∀ (stack : List Nat) (acc : String) (n : Nat),
      symbolizeStackGo sym stack acc n =
        (acc ++ concatLines (stack.map (symLine sym)),
         n + (stack.filter (fun pc => (sym pc).isNone)).length) := by
  intro stack
  induction stack with
  | nil => intro acc n; simp [symbolizeStackGo, concatLines, String.append_empty]
  | cons pc rest ih =>
    intro acc n
    cases hpc : sym pc with
    | some s =>
      simp [symbolizeStackGo, hpc, ih, concatLines, symLine, String.append_assoc,
        List.filter_cons]
    | none =>
      simp [symbolizeStackGo, hpc, ih, concatLines, symLine, String.append_assoc,
        List.filter_cons]
      omega

lemma symbolizeStack_closed (sym : Nat → Option String) (stack : List Nat) :
    symbolizeStack sym stack =
      (concatLines (stack.map (symLine sym)),
       (stack.filter (fun pc => (sym pc).isNone)).length) := by
  have h := symbolizeStackGo_closed sym stack "" 0
  simpa [symbolizeStack] using h

lemma retainedProfile_false_of_nonpos (og : Bool) (s : ProfileSample)
    (h : s.count ≤ 0) : retainedProfile og s = false := by
  simp [retainedProfile]
  intro hc
  omega

lemma foldl_profileStep_bytesTotal (sym : Nat → Option String) (og : Bool) :
    ∀ (samples : List ProfileSample) (acc : List Sample × Nat),
      mapBytesTotal (List.foldl (profileStep og sym) acc samples).1 =
        mapBytesTotal acc.1 +
          ((samples.filter (retainedProfile og)).map
            (fun s => s.allocated_size)).sum := by
  intro samples
  induction samples with
  | nil => intro acc; simp
  | cons s rest ih =>
    intro acc
    by_cases hc : s.count ≤ 0
    · have hr := retainedProfile_false_of_nonpos og s hc
      simp [List.foldl_cons, profileStep, hc, ih, List.filter_cons, hr]
    · by_cases hg : (og && !s.is_censored) = true
      · have hr : retainedProfile og s = false := by
          simp at hg
          simp [retainedProfile, hg.1, hg.2]
        simp [List.foldl_cons, profileStep, hc, hg, ih, List.filter_cons, hr]
      · have hr : retainedProfile og s = true := by
          simp at hg
          simp [retainedProfile]
          constructor
          · omega
          · cases og with
            | false => simp
            | true => simp [hg rfl]
        rw [List.foldl_cons]
        rw [show profileStep og sym acc s =
            (addToEntry acc.1 (symbolizeStack sym s.stack).1 s.allocated_size 1,
             acc.2 + (symbolizeStack sym s.stack).2) by
          simp [profileStep, hc, hg]]
        rw [ih]
        simp [List.filter_cons, hr, addToEntry_bytesTotal]
        omega

lemma foldl_profileStep_nonneg (sym : Nat → Option String) (og : Bool) :
    ∀ (samples : List ProfileSample) (acc : List Sample × Nat),
      (∀ e ∈ acc.1, 0 ≤ e.2.bytes ∧ 0 ≤ e.2.count) →
      (∀ t ∈ samples, 0 ≤ t.allocated_size) →
      ∀ e ∈ (List.foldl (profileStep og sym) acc samples).1,
        0 ≤ e.2.bytes ∧ 0 ≤ e.2.count := by
  intro samples
  induction samples with
  | nil => intro acc hacc _; simpa using hacc
  | cons s rest ih =>
    intro acc hacc hs
    have hs0 : 0 ≤ s.allocated_size := hs s (by simp)
    have hsrest : ∀ t ∈ rest, 0 ≤ t.allocated_size := by
      intro t ht; exact hs t (by simp [ht])
    rw [List.foldl_cons]
    apply ih _ _ hsrest
    by_cases hc : s.count ≤ 0
    · simpa [profileStep, hc] using hacc
    · by_cases hg : (og && !s.is_censored) = true
      · simpa [profileStep, hc, hg] using hacc
      · rw [show profileStep og sym acc s =
            (addToEntry acc.1 (symbolizeStack sym s.stack).1 s.allocated_size 1,
             acc.2 + (symbolizeStack sym s.stack).2) by
          simp [profileStep, hc, hg]]
        exact addToEntry_mem_nonneg acc.1 _ _ _ hacc hs0 (by omega)

lemma foldl_profileStep_growth_filter (sym : Nat → Option String) :
    ∀ (samples : List ProfileSample) (acc : List Sample × Nat),
      List.foldl (profileStep true sym) acc samples =
        List.foldl (profileStep false sym) acc
          (samples.filter (fun s => s.is_censored)) := by
  intro samples
  induction samples with
  | nil => intro acc; simp
  | cons s rest ih =>
    intro acc
    cases hcen : s.is_censored with
    | true =>
      have hstep : profileStep true sym acc s = profileStep false sym acc s := by
        simp [profileStep, hcen]
      simp [List.filter_cons, hcen, List.foldl_cons, hstep, ih]
    | false =>
      have hstep : profileStep true sym acc s = acc := by
        by_cases hc : s.count ≤ 0 <;> simp [profileStep, hcen, hc]
      simp [List.filter_cons, hcen, List.foldl_cons, hstep, ih]

lemma sortLe_trans (order : SampleOrder) :
    ∀ a b c : Sample, (!sampleCmp order b a) = true → (!sampleCmp order c b) = true →
      (!sampleCmp order c a) = true := by
  intro a b c hab hbc
  cases order <;> simp [sampleCmp] at hab hbc ⊢ <;> omega

lemma sortLe_total (order : SampleOrder) :
    ∀ a b : Sample, (!sampleCmp order b a) = true ∨ (!sampleCmp order a b) = true := by
  intro a b
  cases order <;> simp [sampleCmp] <;> omega

lemma insertLe_perm (le : Sample → Sample → Bool) (a : Sample) :
    ∀ l : List Sample, (insertLe le a l).Perm (a :: l) := by
  intro l
  induction l with
  | nil => simp [insertLe]
  | cons b rest ih =>
    by_cases h : le a b
    · simp [insertLe, h]
    · rw [insertLe, if_neg h]
      exact (ih.cons b).trans (List.Perm.swap a b rest)

lemma sortByLe_perm (le : Sample → Sample → Bool) :
    ∀ l : List Sample, (sortByLe le l).Perm l := by
  intro l
  induction l with
  | nil => simp [sortByLe]
  | cons a rest ih =>
    exact (insertLe_perm le a (sortByLe le rest)).trans (ih.cons a)

lemma insertLe_pairwise (le : Sample → Sample → Bool)
    (htrans : ∀ a b c : Sample, le a b = true → le b c = true → le a c = true)
    (htotal : ∀ a b : Sample, le a b = true ∨ le b a = true) (a : Sample) :
    ∀ l : List Sample, l.Pairwise (fun x y => le x y = true) →
      (insertLe le a l).Pairwise (fun x y => le x y = true) := by
  intro l
  induction l with
  | nil => intro _; simp [insertLe]
  | cons b rest ih =>
    intro hp
    rcases List.pairwise_cons.1 hp with ⟨hb, hrest⟩
    by_cases h : le a b
    · rw [insertLe, if_pos h]
      refine List.pairwise_cons.2 ⟨?_, hp⟩
      intro y hy
      rcases List.mem_cons.1 hy with hy | hy
      · exact hy ▸ h
      · exact htrans a b y h (hb y hy)
    · have hba : le b a = true := (htotal a b).resolve_left (by simpa using h)
      rw [insertLe, if_neg h]
      refine List.pairwise_cons.2 ⟨?_, ih hrest⟩
      intro y hy
      have hmem : y ∈ a :: rest := (insertLe_perm le a rest).mem_iff.1 hy
      rcases List.mem_cons.1 hmem with hy2 | hy2
      · exact hy2 ▸ hba
      · exact hb y hy2

lemma sortByLe_pairwise (le : Sample → Sample → Bool)
    (htrans : ∀ a b c : Sample, le a b = true → le b c = true → le a c = true)
    (htotal : ∀ a b : Sample, le a b = true ∨ le b a = true) :
    ∀ l : List Sample, (sortByLe le l).Pairwise (fun x y => le x y = true) := by
  intro l
  induction l with
  | nil => simp [sortByLe]
  | cons a rest ih =>
    exact insertLe_pairwise le htrans htotal a (sortByLe le rest) ih

lemma sortSamples_perm (samples : List Sample) (order : SampleOrder) :
    (SortSamplesByOrder samples order).Perm samples :=
  sortByLe_perm _ samples

lemma sortSamples_pairwise (samples : List Sample) (order : SampleOrder) :
    (SortSamplesByOrder samples order).Pairwise
      (fun a b => sampleCmp order b a = false) := by
  have h := sortByLe_pairwise (fun a b => !sampleCmp order b a)
    (sortLe_trans order) (sortLe_total order) samples
  exact h.imp (by intro a b hab; simpa using hab)

lemma takeWhile_all {α : Type} (p : α → Bool) :
    ∀ l : List α, (∀ t ∈ l, p t = true) → l.takeWhile p = l := by
  intro l
  induction l with
  | nil => intro _; simp
  | cons x rest ih =>
    intro h
    have hx := h x (by simp)
    simp [List.takeWhile_cons, hx, ih (by intro t ht; exact h t (by simp [ht]))]

lemma gLoop_eq_foldl_takeWhile (sym : Nat → Option String) :
    ∀ (samples : List GSample) (acc : List Sample × Nat),
      gLoop sym samples acc =
        List.foldl (gStep sym) acc (samples.takeWhile (fun s => s.count != 0)) := by
  intro samples
  induction samples with
  | nil => intro acc; simp [gLoop]
  | cons s rest ih =>
    intro acc
    by_cases hc : s.count = 0
    · simp [gLoop, hc, List.takeWhile_cons]
    · simp [gLoop, hc, List.takeWhile_cons, ih]

lemma foldl_gStep_bytesTotal (sym : Nat → Option String) :
    ∀ (samples : List GSample) (acc : List Sample × Nat),
      mapBytesTotal (List.foldl (gStep sym) acc samples).1 =
        mapBytesTotal acc.1 + (samples.map (fun s => Int.ofNat s.size)).sum := by
  intro samples
  induction samples with
  | nil => intro acc; simp
  | cons s rest ih =>
    intro acc
    rw [List.foldl_cons, ih]
    simp [gStep, addToEntry_bytesTotal]
    omega

lemma foldl_gStep_countTotal (sym : Nat → Option String) :
    ∀ (samples : List GSample) (acc : List Sample × Nat),
      mapCountTotal (List.foldl (gStep sym) acc samples).1 =
        mapCountTotal acc.1 + (samples.map (fun s => Int.ofNat s.count)).sum := by
  intro samples
  induction samples with
  | nil => intro acc; simp
  | cons s rest ih =>
    intro acc
    rw [List.foldl_cons, ih]
    simp [gStep, addToEntry_countTotal]
    omega

lemma mapBytesTotal_sort (m : List Sample) (order : SampleOrder) :
    mapBytesTotal (SortSamplesByOrder m order) = mapBytesTotal m := by
  exact ((sortSamples_perm m order).map _).sum_eq

/-! ### Claim theorems -/

/-- Claim C2: for every input sample sequence and every mode, the sum over all
aggregated entries of cumulative bytes equals the sum of the byte totals
(allocated_size) of exactly those samples whose occurrence count is positive
and, when growth-only mode is set, that are additionally censored; the same
holds for the sorted output vector. -/
theorem C2_bytes_conservation :
    ∀ (sym : Nat → Option String) (og : Bool) (samples : List ProfileSample)
      (order : SampleOrder),
      mapBytesTotal (aggregateProfile sym samples og).1 =
        ((samples.filter (retainedProfile og)).map (fun s => s.allocated_size)).sum ∧
      mapBytesTotal (AggregateAndSortProfile sym samples og order) =
        ((samples.filter (retainedProfile og)).map (fun s => s.allocated_size)).sum := by
  intro sym og samples order
  have h := foldl_profileStep_bytesTotal sym og samples ([], 0)
  have h1 : mapBytesTotal (aggregateProfile sym samples og).1 =
      ((samples.filter (retainedProfile og)).map (fun s => s.allocated_size)).sum := by
    simpa [aggregateProfile, mapBytesTotal] using h
  exact ⟨h1, by rw [AggregateAndSortProfile, mapBytesTotal_sort]; exact h1⟩

/-- Claim C3: a sample with occurrence count at most zero contributes to no
aggregated entry under any mode (removing it from anywhere in the input leaves
the aggregation output, failure counter included, unchanged), and when every
input sample carries a nonnegative byte total, every aggregated entry has
nonnegative cumulative count and nonnegative cumulative bytes. -/
theorem C3_nonpositive_count_filtered :
    (∀ (sym : Nat → Option String) (og : Bool) (pre post : List ProfileSample)
      (s : ProfileSample), s.count ≤ 0 →
      aggregateProfile sym (pre ++ s :: post) og =
        aggregateProfile sym (pre ++ post) og) ∧
    (∀ (sym : Nat → Option String) (og : Bool) (samples : List ProfileSample),
      (∀ t ∈ samples, 0 ≤ t.allocated_size) →
      ∀ e ∈ (aggregateProfile sym samples og).1,
        0 ≤ e.2.bytes ∧ 0 ≤ e.2.count) := by
  constructor
  · intro sym og pre post s h
    simp [aggregateProfile, List.foldl_append, List.foldl_cons, profileStep, h]
  · intro sym og samples hs
    exact foldl_profileStep_nonneg sym og samples ([], 0) (by simp) hs

/-- Witness for C3 at concrete inputs: a deallocation sample with count -5 is
dropped entirely, and the entries of a small aggregation are nonnegative. -/
theorem C3_witness :
    aggregateProfile (fun _ => none)
        ([] ++ (⟨-5, 100, true, []⟩ : ProfileSample) :: []) false =
      aggregateProfile (fun _ => none) ([] ++ []) false ∧
    (∀ e ∈ (aggregateProfile (fun _ => none)
        [(⟨2, 7, true, [0]⟩ : ProfileSample)] false).1,
      0 ≤ e.2.bytes ∧ 0 ≤ e.2.count) := by
  constructor
  · exact C3_nonpositive_count_filtered.1 (fun _ => none) false [] []
      ⟨-5, 100, true, []⟩ (by decide)
  · exact C3_nonpositive_count_filtered.2 (fun _ => none) false
      [⟨2, 7, true, [0]⟩] (by intro t ht; simp at ht; simp [ht])

/-- Claim C4: in growth-only mode every non-censored sample is discarded: the
aggregation (and the sorted result) coincides with running the non-growth
aggregation on the censored samples only; concretely, growth-only mode with a
censored sample (bytes 50, count 1) and a non-censored sample (bytes 999,
count 1) on distinct stacks yields only the censored sample's entry. -/
theorem C4_growth_only_discards_non_censored :
    (∀ (sym : Nat → Option String) (samples : List ProfileSample)
      (order : SampleOrder),
      AggregateAndSortProfile sym samples true order =
        AggregateAndSortProfile sym (samples.filter (fun s => s.is_censored))
          false order) ∧
    AggregateAndSortProfile (fun pc => if pc = 0 then some "foo" else some "bar")
        [⟨1, 50, true, [0]⟩, ⟨1, 999, false, [1]⟩] true SampleOrder.kBytes =
      [("foo\n", ⟨50, 1⟩)] := by
  constructor
  · intro sym samples order
    rw [AggregateAndSortProfile, AggregateAndSortProfile, aggregateProfile,
      aggregateProfile, foldl_profileStep_growth_filter]
  · decide

/-- Claim C5: sorting by kBytes yields a sequence whose cumulative bytes are
non-increasing at every adjacent pair, and sorting by kCount yields a sequence
whose cumulative counts are non-increasing at every adjacent pair. -/
theorem C5_sort_adjacent_non_increasing :
    ∀ samples : List Sample,
      List.Chain' (fun a b => b.2.bytes ≤ a.2.bytes)
        (SortSamplesByOrder samples SampleOrder.kBytes) ∧
      List.Chain' (fun a b => b.2.count ≤ a.2.count)
        (SortSamplesByOrder samples SampleOrder.kCount) := by
  intro samples
  constructor
  · have h := sortSamples_pairwise samples SampleOrder.kBytes
    exact (h.imp (by intro a b hab; simp [sampleCmp] at hab; omega)).chain'
  · have h := sortSamples_pairwise samples SampleOrder.kCount
    exact (h.imp (by intro a b hab; simp [sampleCmp] at hab; omega)).chain'

/-- Claim C1 fails as stated: in AggregateAndSortProfile a retained sample
with occurrence count 5 produces an entry whose cumulative count is 1 (the
source increments by one per sample), not 5 as the claim requires of both
backends. -/
theorem C1_counterexample :
    (aggregateProfile (fun _ => none)
        [(⟨5, 100, true, []⟩ : ProfileSample)] false).1 = [("", ⟨100, 1⟩)] ∧
    (1 : Int) ≠ (⟨5, 100, true, []⟩ : ProfileSample).count := by
  exact ⟨by decide, by decide⟩

/-- Claim C1 amended: for every retained sample both backends add the sample's
byte total to the entry's cumulative bytes, and the entry's cumulative count
increases by exactly 1 per retained sample in the tcmalloc-profile backend
(++entry.count) but by the sample's occurrence count in the gperftools
backend. -/
theorem C1_amended_per_sample_update :
    (∀ (sym : Nat → Option String) (og : Bool) (samples : List ProfileSample)
      (s : ProfileSample), 0 < s.count → (og = true → s.is_censored = true) →
      lookupEntry (aggregateProfile sym (samples ++ [s]) og).1
          (symbolizeStack sym s.stack).1 =
        ⟨(lookupEntry (aggregateProfile sym samples og).1
            (symbolizeStack sym s.stack).1).bytes + s.allocated_size,
         (lookupEntry (aggregateProfile sym samples og).1
            (symbolizeStack sym s.stack).1).count + 1⟩) ∧
    (∀ (sym : Nat → Option String) (samples : List GSample) (g : GSample),
      (∀ t ∈ samples, t.count ≠ 0) → g.count ≠ 0 →
      lookupEntry (gLoop sym (samples ++ [g]) ([], 0)).1
          (symbolizeStack sym g.stack).1 =
        ⟨(lookupEntry (gLoop sym samples ([], 0)).1
            (symbolizeStack sym g.stack).1).bytes + Int.ofNat g.size,
         (lookupEntry (gLoop sym samples ([], 0)).1
            (symbolizeStack sym g.stack).1).count + Int.ofNat g.count⟩) := by
  constructor
  · intro sym og samples s hc hcen
    have hstep : aggregateProfile sym (samples ++ [s]) og =
        profileStep og sym (aggregateProfile sym samples og) s := by
      simp [aggregateProfile, List.foldl_append]
    have hc2 : ¬ s.count ≤ 0 := by omega
    have hg : (og && !s.is_censored) = false := by
      cases og with
      | false => simp
      | true => simp [hcen rfl]
    rw [hstep, show profileStep og sym (aggregateProfile sym samples og) s =
        (addToEntry (aggregateProfile sym samples og).1
          (symbolizeStack sym s.stack).1 s.allocated_size 1,
         (aggregateProfile sym samples og).2 + (symbolizeStack sym s.stack).2) by
      simp [profileStep, hc2, hg]]
    exact lookupEntry_addToEntry_self _ _ _ _
  · intro sym samples g hall hg
    have htw : (samples ++ [g]).takeWhile (fun s => s.count != 0) = samples ++ [g] := by
      apply takeWhile_all
      intro t ht
      rcases List.mem_append.1 ht with ht | ht
      · simpa using hall t ht
      · simp at ht
        subst ht
        simpa using hg
    have htw2 : samples.takeWhile (fun s => s.count != 0) = samples := by
      apply takeWhile_all
      intro t ht
      simpa using hall t ht
    rw [gLoop_eq_foldl_takeWhile, htw, List.foldl_append,
      gLoop_eq_foldl_takeWhile, htw2]
    simp only [List.foldl_cons, List.foldl_nil]
    rw [show gStep sym (List.foldl (gStep sym) ([], 0) samples) g =
        (addToEntry (List.foldl (gStep sym) ([], 0) samples).1
          (symbolizeStack sym g.stack).1 (Int.ofNat g.size) (Int.ofNat g.count),
         (List.foldl (gStep sym) ([], 0) samples).2 + (symbolizeStack sym g.stack).2)
      from rfl]
    exact lookupEntry_addToEntry_self _ _ _ _

/-- Witness for the amended C1: appending one retained sample of count 5 and
100 bytes to an empty tcmalloc profile yields entry totals (0 + 100, 0 + 1),
and appending one gperftools record of count 2 and 64 bytes yields entry
totals (0 + 64, 0 + 2). -/
theorem C1_amended_witness :
    lookupEntry (aggregateProfile (fun _ => none)
        ([] ++ [(⟨5, 100, true, []⟩ : ProfileSample)]) false).1
        (symbolizeStack (fun _ => none) []).1 = ⟨0 + 100, 0 + 1⟩ ∧
    lookupEntry (gLoop (fun _ => none)
        ([] ++ [(⟨2, 64, []⟩ : GSample)]) ([], 0)).1
        (symbolizeStack (fun _ => none) []).1 = ⟨0 + 64, 0 + 2⟩ := by
  constructor
  · exact C1_amended_per_sample_update.1 (fun _ => none) false []
      ⟨5, 100, true, []⟩ (by decide) (by intro h; simp at h)
  · exact C1_amended_per_sample_update.2 (fun _ => none) [] ⟨2, 64, []⟩
      (by intro t ht; simp at ht) (by decide)

/-- Claim C6 fails as stated: the std::sort contract admits, for an input of
two entries with equal cumulative bytes, an output in which the two tied
entries appear in reversed relative order, so the sort is not stable; the
permutation and no-mutation half of the claim survives. -/
theorem C6_counterexample :
    IsStdSortOutput SampleOrder.kBytes
        [(("a" : String), (⟨5, 1⟩ : SampleInfo)), ("b", ⟨5, 2⟩)]
        [(("b" : String), (⟨5, 2⟩ : SampleInfo)), ("a", ⟨5, 1⟩)] ∧
    (⟨5, 2⟩ : SampleInfo).bytes = (⟨5, 1⟩ : SampleInfo).bytes ∧
    [(("b" : String), (⟨5, 2⟩ : SampleInfo)), ("a", ⟨5, 1⟩)] ≠
      [(("a" : String), (⟨5, 1⟩ : SampleInfo)), ("b", ⟨5, 2⟩)] := by
  refine ⟨⟨?_, ?_⟩, by decide, by decide⟩
  · decide
  · decide

/-- Claim C6 amended: for every list of entries and either ordering key, the
sort's output satisfies the std::sort contract: it is a permutation of the
input (no entry added, removed, or mutated) sorted by the chosen key, with
the order among equal-key entries unspecified. -/
theorem C6_amended_sort_contract :
    ∀ (samples : List Sample) (order : SampleOrder),
      IsStdSortOutput order samples (SortSamplesByOrder samples order) := by
  intro samples order
  exact ⟨sortSamples_perm samples order, sortSamples_pairwise samples order⟩

/-- Claim C7: the truncation notice exists iff the ranked list is longer than
maxRows, it states exactly size - maxRows, the table body has one row per
entry in the first min(maxRows, size) positions, and an empty list renders
zero rows and no truncation notice. -/
theorem C7_truncation_and_rows :
    ∀ (esc : String → String) (samples : List Sample) (maxRows : Nat),
      ((truncationNotice samples.length maxRows).isSome ↔
        maxRows < samples.length) ∧
      (maxRows < samples.length →
        truncationNotice samples.length maxRows =
          some (toString (samples.length - maxRows) ++ " call stacks truncated\n")) ∧
      (generateTableRows esc samples maxRows).length = min maxRows samples.length ∧
      (samples = [] →
        generateTableRows esc samples maxRows = [] ∧
        truncationNotice samples.length maxRows = none) := by
  intro esc samples maxRows
  refine ⟨?_, ?_, ?_, ?_⟩
  · by_cases h : maxRows < samples.length <;> simp [truncationNotice, h]
  · intro h
    simp [truncationNotice, h]
  · simp [generateTableRows, List.length_take]
  · intro h
    subst h
    simp [generateTableRows, truncationNotice]

/-- Witness for C7 at concrete inputs: a three-entry list cut to two rows
yields the notice for one truncated stack and exactly two rows, and the empty
list yields no rows. -/
theorem C7_witness :
    truncationNotice 3 2 = some (toString (3 - 2) ++ " call stacks truncated\n") ∧
    (generateTableRows id
      [(("x" : String), (⟨1, 1⟩ : SampleInfo)), ("y", ⟨2, 1⟩), ("z", ⟨3, 1⟩)]
      2).length = min 2 3 ∧
    generateTableRows id ([] : List Sample) 5 = [] := by
  refine ⟨?_, ?_, ?_⟩
  · exact (C7_truncation_and_rows id
      [("x", ⟨1, 1⟩), ("y", ⟨2, 1⟩), ("z", ⟨3, 1⟩)] 2).2.1 (by decide)
  · exact (C7_truncation_and_rows id
      [("x", ⟨1, 1⟩), ("y", ⟨2, 1⟩), ("z", ⟨3, 1⟩)] 2).2.2.1
  · exact ((C7_truncation_and_rows id ([] : List Sample) 5).2.2.2 rfl).1

/-- Claim C8: the average-bytes cell is 0 when the cumulative count is 0 (the
division branch is not taken), and equals the floor of cumulative bytes over
cumulative count when the count is positive and the bytes are nonnegative (the
only values aggregation produces, so C++ truncating division is floor
division there). -/
theorem C8_avg_bytes :
    ∀ info : SampleInfo,
      (info.count = 0 → avgBytesCell info = 0) ∧
      (0 < info.count → 0 ≤ info.bytes →
        avgBytesCell info = Int.fdiv info.bytes info.count) := by
  intro info
  constructor
  · intro h
    simp [avgBytesCell, h]
  · intro hc hb
    have hcc : ¬ info.count ≤ 0 := by omega
    rw [avgBytesCell, if_neg hcc]
    obtain ⟨m, hm⟩ : ∃ m : Nat, info.bytes = Int.ofNat m :=
      ⟨info.bytes.toNat, (Int.toNat_of_nonneg hb).symm⟩
    obtain ⟨n, hn⟩ : ∃ n : Nat, info.count = Int.ofNat n :=
      ⟨info.count.toNat, (Int.toNat_of_nonneg (le_of_lt hc)).symm⟩
    rw [hm, hn]
    simp only [Int.ofNat_eq_natCast, ← Int.ofNat_tdiv, ← Int.ofNat_fdiv]

/-- Witness for C8 at concrete inputs: count 0 renders average 0, and 7 bytes
over count 2 renders the floor value. -/
theorem C8_witness :
    avgBytesCell ⟨7, 0⟩ = 0 ∧ avgBytesCell ⟨7, 2⟩ = Int.fdiv 7 2 := by
  constructor
  · exact (C8_avg_bytes ⟨7, 0⟩).1 rfl
  · exact (C8_avg_bytes ⟨7, 2⟩).2 (by decide) (by decide)

/-- Claim C9: the stack key of a sample is the concatenation, in frame order,
of the resolved line per frame with the fixed placeholder line for each
failing frame, and the failure counter grows by exactly the number of failing
frames; a 3-frame stack whose every frame fails yields three placeholder lines
and counter 3, and aggregation still produces the entry (it never aborts). -/
theorem C9_symbolization_failures :
    (∀ (sym : Nat → Option String) (stack : List Nat),
      symbolizeStack sym stack =
        (concatLines (stack.map (symLine sym)),
         (stack.filter (fun pc => (sym pc).isNone)).length)) ∧
    symbolizeStack (fun _ => none) [0, 1, 2] =
      ("Failed to symbolize\nFailed to symbolize\nFailed to symbolize\n", 3) ∧
    aggregateProfile (fun _ => none) [⟨1, 10, true, [0, 1, 2]⟩] false =
      ([("Failed to symbolize\nFailed to symbolize\nFailed to symbolize\n",
         ⟨10, 1⟩)], 3) := by
  refine ⟨symbolizeStack_closed, by decide, by decide⟩

/-- Claim C10: the gperftools backend iterates the flattened sample array only
up to (excluding) the first record whose count is 0, and every record before
that sentinel contributes its size and count unconditionally: the loop equals
an unfiltered fold over the takeWhile prefix, and the aggregate byte and
count totals equal the plain sums over that prefix. -/
theorem C10_gperftools_sentinel :
    (∀ (sym : Nat → Option String) (samples : List GSample)
      (acc : List Sample × Nat),
      gLoop sym samples acc =
        List.foldl (gStep sym) acc (samples.takeWhile (fun s => s.count != 0))) ∧
    (∀ (sym : Nat → Option String) (samples : List GSample),
      mapBytesTotal (gLoop sym samples ([], 0)).1 =
        ((samples.takeWhile (fun s => s.count != 0)).map
          (fun s => Int.ofNat s.size)).sum ∧
      mapCountTotal (gLoop sym samples ([], 0)).1 =
        ((samples.takeWhile (fun s => s.count != 0)).map
          (fun s => Int.ofNat s.count)).sum) := by
  constructor
  · exact gLoop_eq_foldl_takeWhile
  · intro sym samples
    constructor
    · rw [gLoop_eq_foldl_takeWhile]
      have h := foldl_gStep_bytesTotal sym
        (samples.takeWhile (fun s => s.count != 0)) ([], 0)
      simpa [mapBytesTotal] using h
    · rw [gLoop_eq_foldl_takeWhile]
      have h := foldl_gStep_countTotal sym
        (samples.takeWhile (fun s => s.count != 0)) ([], 0)
      simpa [mapCountTotal] using h
